import Mathlib

/-!
Shallow embedding of the streaming annotation decoder and incremental
overlay renderer of `src/renderer.js` (functions `parseBoxesFromTokens`,
`extractTextFromTokens`, `renderBoxes`, and the coordinate scaling used by
`renderBoxes` / `viewBoxesImage`).

Strings are modelled as `List Char`; JavaScript numbers produced by
`parseFloat` are modelled exactly (as `JSNum`, rationals plus the special
values `NaN` and signed infinity); the SVG overlay mutated by `renderBoxes`
is modelled as the explicit `RenderState` record holding the module-level
cursor `lastBoxCount` and the ordered list of painted groups.
-/

/-- The characters that JavaScript's `String.prototype.trim` removes
(ECMAScript WhiteSpace and LineTerminator code points). -/
def jsWhitespaceChars : List Char :=
  ['\t', '\n', '\x0b', '\x0c', '\r', ' ', ' ', ' ',
   ' ', ' ', ' ', ' ', ' ', ' ', ' ',
   ' ', ' ', ' ', ' ', ' ', ' ', ' ',
   ' ', '　', '﻿']

def jsWhitespace (c : Char) : Bool := jsWhitespaceChars.contains c

/-- JavaScript `s.trim()`. -/
def jsTrim (s : List Char) : List Char :=
  ((s.dropWhile jsWhitespace).reverse.dropWhile jsWhitespace).reverse

/-- JavaScript `s.split(',')`: split at every comma; `"".split(',')`
is `[""]`. -/
def splitComma : List Char → List (List Char)
  | [] => [[]]
  | c :: rest =>
    if c = ',' then [] :: splitComma rest
    else
      match splitComma rest with
      | [] => [[c]]
      | h :: t => (c :: h) :: t

/-- A JavaScript number as produced by `parseFloat`: `NaN`, a signed
infinity, or a finite value (floats modelled exactly as rationals). -/
inductive JSNum where
  | nan : JSNum
  | inf : Bool → JSNum
  | num : ℚ → JSNum
deriving DecidableEq

def JSNum.isNaN : JSNum → Bool
  | .nan => true
  | _ => false

def isAsciiDigit (c : Char) : Bool := '0' ≤ c && c ≤ '9'

/-- Numeric value of a digit string (most significant first). -/
def digitsVal (ds : List Char) : ℕ :=
  ds.foldl (fun a c => 10 * a + (c.toNat - 48)) 0

/-- Strip an optional sign; returns (isNegative, rest). -/
def parseSign : List Char → Bool × List Char
  | '-' :: r => (true, r)
  | '+' :: r => (false, r)
  | s => (false, s)

/-- JavaScript `parseFloat` on an already-trimmed string: parse the longest
numeric prefix `[+-]? (Infinity | digits [. digits] | . digits) ([eE][+-]?digits)?`
and return `NaN` when there is none.  Values are exact rationals. -/
def parseFloatChars (s : List Char) : JSNum :=
  let p := parseSign s
  let neg := p.1
  let s1 := p.2
  if "Infinity".data.isPrefixOf s1 then .inf neg
  else
    let ip := s1.takeWhile isAsciiDigit
    let s2 := s1.dropWhile isAsciiDigit
    let fp :=
      match s2 with
      | '.' :: r => r.takeWhile isAsciiDigit
      | _ => []
    let s3 :=
      match s2 with
      | '.' :: r => r.dropWhile isAsciiDigit
      | _ => s2
    if ip = [] ∧ fp = [] then .nan
    else
      let mantissa : ℚ := (digitsVal ip : ℚ) + (digitsVal fp : ℚ) / ((10 : ℚ) ^ fp.length)
      let e : ℤ :=
        match s3 with
        | c :: r =>
          if c = 'e' ∨ c = 'E' then
            let q := parseSign r
            let ed := q.2.takeWhile isAsciiDigit
            if ed = [] then 0
            else if q.1 then -(digitsVal ed : ℤ) else (digitsVal ed : ℤ)
          else 0
        | [] => 0
      let v : ℚ := mantissa * (10 : ℚ) ^ e
      .num (if neg then -v else v)

/-- `matchData.coords.split(',').map(s => parseFloat(s.trim())).filter(n => !isNaN(n))`
(renderer.js line 489). -/
def numericCoords (coords : List Char) : List JSNum :=
  ((splitComma coords).map (fun s => parseFloatChars (jsTrim s))).filter
    (fun n => !n.isNaN)

/-! ### The extractor: the global regex
`/<\|ref\|>([^<]+)<\|\/ref\|><\|det\|>\[\[([^\]]+)\]\]<\|\/det\|>/g`
scanned left-to-right over the token text (renderer.js lines 468-480).
For this pattern backtracking can never turn a failed attempt into a
success (each character class is followed by a literal starting with a
character the class excludes), so each attempt is the deterministic
`tryMatch` below, and `exec` in a loop is the leftmost scan `scanAux`. -/

def refOpenTag : List Char := "<|ref|>".data

def refCloseDetOpen : List Char := "<|/ref|><|det|>[[".data

def detCloseTag : List Char := "]]<|/det|>".data

/-- Match a literal: consume `pat` from the front of `s`. -/
def lit (pat s : List Char) : Option (List Char) :=
  if pat.isPrefixOf s then some (s.drop pat.length) else none

/-- One anchored attempt of the box pattern at the start of `s`.
Returns the two captures (raw label, raw coordinate text) and the
remaining suffix of `s`. -/
def tryMatch (s : List Char) : Option (List Char × List Char × List Char) :=
  match lit refOpenTag s with
  | none => none
  | some s1 =>
    let lab := s1.takeWhile (fun c => c != '<')
    let s2 := s1.dropWhile (fun c => c != '<')
    if lab = [] then none
    else
      match lit refCloseDetOpen s2 with
      | none => none
      | some s3 =>
        let ks := s3.takeWhile (fun c => c != ']')
        let s4 := s3.dropWhile (fun c => c != ']')
        if ks = [] then none
        else
          match lit detCloseTag s4 with
          | none => none
          | some s5 => some (lab, ks, s5)

/-- One regex match with its captures and character offsets
(`match.index` / `match.index + match[0].length`). -/
structure RawCapture where
  label : List Char
  coords : List Char
  mStart : ℕ
  mEnd : ℕ
deriving DecidableEq

/-- The left-to-right global scan, with explicit fuel (one unit per
character position is enough since every step consumes at least one
character). -/
def scanAux (fuel : ℕ) (s : List Char) (pos : ℕ) : List RawCapture :=
  match fuel with
  | 0 => []
  | fuel' + 1 =>
    (tryMatch s).elim
      (match s with
       | [] => []
       | _ :: tail => scanAux fuel' tail (pos + 1))
      (fun r => ⟨r.1, r.2.1, pos, pos + (s.length - r.2.2.length)⟩ ::
        scanAux fuel' r.2.2 (pos + (s.length - r.2.2.length)))

/-- All matches of the pattern in `s`, leftmost first. -/
def scanRaw (s : List Char) : List RawCapture := scanAux s.length s 0

/-- One element of the `matches` array of `parseBoxesFromTokens`
(renderer.js lines 474-479): the label capture is `.trim()`ed at
collection time. -/
structure RawMatch where
  content : List Char
  coords : List Char
  matchStart : ℕ
  matchEnd : ℕ
deriving DecidableEq

/-- The `matches` array (renderer.js lines 470-480). -/
def collectMatches (s : List Char) : List RawMatch :=
  (scanRaw s).map (fun e => ⟨jsTrim e.label, e.coords, e.mStart, e.mEnd⟩)

/-- `KNOWN_TYPES` (renderer.js line 55). -/
def KNOWN_TYPES : List (List Char) :=
  ["title", "sub_title", "text", "table", "image", "image_caption",
   "figure", "caption", "formula", "list"].map String.data

/-- One decoded box (the object pushed at renderer.js lines 508-518). -/
structure Box where
  content : List Char
  textContent : List Char
  isType : Bool
  type : List Char
  x1 : JSNum
  y1 : JSNum
  x2 : JSNum
  y2 : JSNum
  isComplete : Bool
deriving DecidableEq

/-- `tokenText.substring(matchData.matchEnd, matches[i+1].matchStart).trim()`. -/
def midTrailing (tok : List Char) (m next : RawMatch) : List Char :=
  jsTrim ((tok.take next.matchStart).drop m.matchEnd)

/-- `tokenText.substring(matchData.matchEnd).trim()`. -/
def lastTrailing (tok : List Char) (m : RawMatch) : List Char :=
  jsTrim (tok.drop m.matchEnd)

/-- The box built from a match whose coordinate text parsed to exactly
four numbers. -/
def mkBox4 (m : RawMatch) (cs : List JSNum) (h : cs.length = 4)
    (tc : List Char) (ic : Bool) : Box :=
  { content := m.content
    textContent := tc
    isType := decide (m.content ∈ KNOWN_TYPES)
    type := if m.content ∈ KNOWN_TYPES then m.content else "text".data
    x1 := cs.get ⟨0, by omega⟩
    y1 := cs.get ⟨1, by omega⟩
    x2 := cs.get ⟨2, by omega⟩
    y2 := cs.get ⟨3, by omega⟩
    isComplete := ic }

/-- The per-match loop of `parseBoxesFromTokens` (renderer.js lines
483-523): a match contributes a box only when exactly four numeric
coordinate tokens survive; the trailing text of a non-last match runs to
the next match's start, that of the last match to the end of the stream,
and only the last match's completion is gated on `isOcrComplete`.
(The `try/catch` around the body is dead in the model: every operation in
it is total.) -/
def buildBoxes (tok : List Char) (isOcrComplete : Bool) : List RawMatch → List Box
  | [] => []
  | [m] =>
    let cs := numericCoords m.coords
    if h : cs.length = 4 then
      [mkBox4 m cs h (lastTrailing tok m)
        (isOcrComplete && !(lastTrailing tok m).isEmpty)]
    else []
  | m :: next :: rest =>
    let cs := numericCoords m.coords
    (if h : cs.length = 4 then
      [mkBox4 m cs h (midTrailing tok m next)
        (!(midTrailing tok m next).isEmpty)]
     else []) ++ buildBoxes tok isOcrComplete (next :: rest)

/-- `parseBoxesFromTokens(tokenText, isOcrComplete)` (renderer.js
lines 465-526). -/
def parseBoxesFromTokens (tokenText : List Char) (isOcrComplete : Bool) : List Box :=
  buildBoxes tokenText isOcrComplete (collectMatches tokenText)

/-! ### Coordinate mapping (renderer.js lines 556-559 and 415-418) -/

def DEEPSEEK_COORD_MAX : ℚ := 999

/-- `(model / DEEPSEEK_COORD_MAX) * target`. -/
def scaleCoord (model target : ℚ) : ℚ := model / DEEPSEEK_COORD_MAX * target

structure RatBox where
  x1 : ℚ
  y1 : ℚ
  x2 : ℚ
  y2 : ℚ
deriving DecidableEq

/-- The four scaling lines shared by `renderBoxes` (556-559) and
`viewBoxesImage` (415-418): each axis independently. -/
def scaleBox (b : RatBox) (targetWidth targetHeight : ℚ) : RatBox :=
  { x1 := scaleCoord b.x1 targetWidth
    y1 := scaleCoord b.y1 targetHeight
    x2 := scaleCoord b.x2 targetWidth
    y2 := scaleCoord b.y2 targetHeight }

/-! ### The incremental render controller (renderer.js lines 537-700) -/

/-- The interaction decision of renderer.js lines 548-549 and 621-632:
`isInteractive = promptType === 'ocr' || promptType === 'document'`;
in `'ocr'` mode a box is clickable iff it is not a type label and the
copied text is `box.content`; in `'document'` mode iff it is a type label
with `isComplete` and non-empty `textContent`, and the copied text is
`box.textContent`; in any other mode `isClickable` stays `false` and
`copyText` stays `''`. -/
def boxInteraction (promptType : String) (b : Box) : Bool × List Char :=
  let isInteractive : Bool := decide (promptType = "ocr" ∨ promptType = "document")
  if promptType = "ocr" then (!b.isType && isInteractive, b.content)
  else if promptType = "document" then
    (b.isType && b.isComplete && !b.textContent.isEmpty && isInteractive,
     b.textContent)
  else (false, [])

/-- One SVG group appended to `ocrBoxesOverlay`. -/
structure PaintedGroup where
  box : Box
  clickable : Bool
  copyText : List Char
deriving DecidableEq

def paintGroup (promptType : String) (b : Box) : PaintedGroup :=
  { box := b
    clickable := (boxInteraction promptType b).1
    copyText := (boxInteraction promptType b).2 }

/-- The state touched by `renderBoxes`: the module-level cursor
`lastBoxCount` (renderer.js line 76), the overlay's children, and whether
the overlay's `viewBox` has been established. -/
structure RenderState where
  lastBoxCount : ℕ
  painted : List PaintedGroup
  viewBoxSet : Bool
deriving DecidableEq

/-- `renderBoxes(boxes, imageWidth, imageHeight, promptType)` (renderer.js
lines 537-700): no-op when a dimension is zero/unset or `boxes` is empty;
otherwise the `viewBox` is established if absent, only
`boxes.slice(lastBoxCount)` is appended to the overlay, and
`lastBoxCount` becomes `boxes.length`. -/
def renderBoxes (boxes : List Box) (imageWidth imageHeight : ℕ)
    (promptType : String) (st : RenderState) : RenderState :=
  if imageWidth = 0 ∨ imageHeight = 0 ∨ boxes.length = 0 then st
  else
    { lastBoxCount := boxes.length
      painted := st.painted ++ (boxes.drop st.lastBoxCount).map (paintGroup promptType)
      viewBoxSet := true }

/-- A sequence of `renderBoxes` calls against the same target, as issued
by the polling loop (renderer.js lines 873-876). -/
def runPaints (promptType : String) (imageWidth imageHeight : ℕ)
    (lists : List (List Box)) (st : RenderState) : RenderState :=
  lists.foldl (fun s bs => renderBoxes bs imageWidth imageHeight promptType s) st

/-! ### Concrete sample data for instantiations -/

/-- A type-label annotation with final non-empty trailing text
(the example of section 8 of the design notes). -/
def sampleTypeBox : Box :=
  { content := "title".data
    textContent := "Body".data
    isType := true
    type := "title".data
    x1 := .num 0
    y1 := .num 0
    x2 := .num 10
    y2 := .num 10
    isComplete := true }

/-- A stream whose final raw match is dropped (three coordinates), so the
last decoded annotation comes from a non-last raw match. -/
def cexStreamA : List Char :=
  "<|ref|>a<|/ref|><|det|>[[1,2,3,4]]<|/det|>X<|ref|>b<|/ref|><|det|>[[1,2,3]]<|/det|>".data

/-- A stream whose trailing text carries leading whitespace. -/
def cexStreamB : List Char :=
  "<|ref|>a<|/ref|><|det|>[[1,2,3,4]]<|/det|> x".data

/-! ### Supporting lemmas -/

theorem lit_eq_some {pat s r : List Char} : lit pat s = some r ↔ s = pat ++ r := by
  unfold lit
  split
  · rename_i h
    rw [List.isPrefixOf_iff_prefix] at h
    obtain ⟨u, rfl⟩ := h
    rw [List.drop_left]
    constructor
    · rintro ⟨rfl⟩; rfl
    · intro h; rw [List.append_cancel_left_eq] at h; rw [h]
  · rename_i h
    rw [List.isPrefixOf_iff_prefix] at h
    constructor
    · intro hc; cases hc
    · intro hc; exact absurd ⟨r, hc.symm⟩ h

theorem takeWhile_all_append {α : Type} {p : α → Bool} {l1 l2 : List α}
    (h : ∀ c ∈ l1, p c = true) :
    (l1 ++ l2).takeWhile p = l1 ++ l2.takeWhile p := by
  induction l1 with
  | nil => simp
  | cons a l ih =>
    have ha := h a (List.mem_cons_self a l)
    simp only [List.cons_append, List.takeWhile_cons_of_pos ha, List.cons.injEq, true_and]
    exact ih (fun c hc => h c (List.mem_cons_of_mem a hc))

theorem dropWhile_all_append {α : Type} {p : α → Bool} {l1 l2 : List α}
    (h : ∀ c ∈ l1, p c = true) :
    (l1 ++ l2).dropWhile p = l2.dropWhile p := by
  induction l1 with
  | nil => simp
  | cons a l ih =>
    have ha := h a (List.mem_cons_self a l)
    simp only [List.cons_append, List.dropWhile_cons_of_pos ha]
    exact ih (fun c hc => h c (List.mem_cons_of_mem a hc))

/-- Forward direction: a successful anchored attempt decomposes the input. -/
theorem tryMatch_some_decomp {s lab ks rest : List Char}
    (h : tryMatch s = some (lab, ks, rest)) :
    s = refOpenTag ++ lab ++ refCloseDetOpen ++ ks ++ detCloseTag ++ rest
    ∧ lab ≠ [] ∧ (∀ c ∈ lab, c ≠ '<') ∧ ks ≠ [] ∧ (∀ c ∈ ks, c ≠ ']') := by
  unfold tryMatch at h
  cases h1 : lit refOpenTag s with
  | none => rw [h1] at h; cases h
  | some s1 =>
    rw [h1] at h
    simp only at h
    rw [lit_eq_some] at h1
    by_cases hlab : s1.takeWhile (fun c => c != '<') = []
    · rw [if_pos hlab] at h; cases h
    · rw [if_neg hlab] at h
      cases h2 : lit refCloseDetOpen (s1.dropWhile (fun c => c != '<')) with
      | none => rw [h2] at h; cases h
      | some s3 =>
        rw [h2] at h
        simp only at h
        rw [lit_eq_some] at h2
        by_cases hks : s3.takeWhile (fun c => c != ']') = []
        · rw [if_pos hks] at h; cases h
        · rw [if_neg hks] at h
          cases h3 : lit detCloseTag (s3.dropWhile (fun c => c != ']')) with
          | none => rw [h3] at h; cases h
          | some s5 =>
            rw [h3] at h
            simp only [Option.some.injEq, Prod.mk.injEq] at h
            obtain ⟨hl, hk, hr⟩ := h
            rw [lit_eq_some] at h3
            subst hl hk hr
            refine ⟨?_, hlab, ?_, hks, ?_⟩
            · rw [h1]
              conv_lhs => rw [← List.takeWhile_append_dropWhile (p := fun c => c != '<') (l := s1)]
              rw [h2]
              conv_lhs => rw [← List.takeWhile_append_dropWhile (p := fun c => c != ']') (l := s3)]
              rw [h3]
              simp [List.append_assoc]
            · intro c hc
              have := List.mem_takeWhile_imp hc
              simpa using this
            · intro c hc
              have := List.mem_takeWhile_imp hc
              simpa using this

/-- Backward direction: any such decomposition is matched. -/
theorem tryMatch_of_decomp {lab ks rest : List Char}
    (hlab : lab ≠ []) (hlabc : ∀ c ∈ lab, c ≠ '<')
    (hks : ks ≠ []) (hksc : ∀ c ∈ ks, c ≠ ']') :
    tryMatch (refOpenTag ++ lab ++ refCloseDetOpen ++ ks ++ detCloseTag ++ rest)
      = some (lab, ks, rest) := by
  unfold tryMatch
  have h1 : lit refOpenTag (refOpenTag ++ lab ++ refCloseDetOpen ++ ks ++ detCloseTag ++ rest)
      = some (lab ++ refCloseDetOpen ++ ks ++ detCloseTag ++ rest) := by
    rw [lit_eq_some]; simp [List.append_assoc]
  rw [h1]
  simp only
  have hlab2 : ∀ c ∈ lab, (fun c => c != '<') c = true := by
    intro c hc; simpa using hlabc c hc
  have hks2 : ∀ c ∈ ks, (fun c => c != ']') c = true := by
    intro c hc; simpa using hksc c hc
  have htw : (lab ++ refCloseDetOpen ++ ks ++ detCloseTag ++ rest).takeWhile (fun c => c != '<') = lab := by
    rw [List.append_assoc, List.append_assoc, List.append_assoc,
      takeWhile_all_append hlab2]
    have : (refCloseDetOpen ++ (ks ++ (detCloseTag ++ rest))).takeWhile (fun c => c != '<') = [] := by
      rfl
    rw [this, List.append_nil]
  have hdw : (lab ++ refCloseDetOpen ++ ks ++ detCloseTag ++ rest).dropWhile (fun c => c != '<')
      = refCloseDetOpen ++ ks ++ detCloseTag ++ rest := by
    rw [List.append_assoc, List.append_assoc, List.append_assoc,
      dropWhile_all_append hlab2]
    have : (refCloseDetOpen ++ (ks ++ (detCloseTag ++ rest))).dropWhile (fun c => c != '<')
        = refCloseDetOpen ++ (ks ++ (detCloseTag ++ rest)) := rfl
    rw [this]
    simp [List.append_assoc]
  rw [htw, hdw, if_neg hlab]
  have h2 : lit refCloseDetOpen (refCloseDetOpen ++ ks ++ detCloseTag ++ rest)
      = some (ks ++ detCloseTag ++ rest) := by
    rw [lit_eq_some]; simp [List.append_assoc]
  rw [h2]
  simp only
  have htw2 : (ks ++ detCloseTag ++ rest).takeWhile (fun c => c != ']') = ks := by
    rw [List.append_assoc, takeWhile_all_append hks2]
    have : (detCloseTag ++ rest).takeWhile (fun c => c != ']') = [] := rfl
    rw [this, List.append_nil]
  have hdw2 : (ks ++ detCloseTag ++ rest).dropWhile (fun c => c != ']')
      = detCloseTag ++ rest := by
    rw [List.append_assoc, dropWhile_all_append hks2]
    rfl
  rw [htw2, hdw2, if_neg hks]
  have h3 : lit detCloseTag (detCloseTag ++ rest) = some rest := by
    rw [lit_eq_some]
  rw [h3]

theorem refOpenTag_length : refOpenTag.length = 7 := rfl

theorem refCloseDetOpen_length : refCloseDetOpen.length = 17 := rfl

theorem detCloseTag_length : detCloseTag.length = 10 := rfl

/-- A successful attempt consumes at least 36 characters, so the
remainder is strictly shorter. -/
theorem tryMatch_length {s lab ks rest : List Char}
    (h : tryMatch s = some (lab, ks, rest)) :
    s.length = 34 + lab.length + ks.length + rest.length := by
  obtain ⟨hs, -, -, -, -⟩ := tryMatch_some_decomp h
  subst hs
  simp [refOpenTag, refCloseDetOpen, detCloseTag]
  omega

theorem tryMatch_nil : tryMatch ([] : List Char) = none := rfl

/-- Appending to the stream does not disturb a successful attempt. -/
theorem tryMatch_append {s t lab ks rest : List Char}
    (h : tryMatch s = some (lab, ks, rest)) :
    tryMatch (s ++ t) = some (lab, ks, rest ++ t) := by
  obtain ⟨hs, hlab, hlabc, hks, hksc⟩ := tryMatch_some_decomp h
  subst hs
  simp only [List.append_assoc]
  simpa [List.append_assoc] using
    @tryMatch_of_decomp lab ks (rest ++ t) hlab hlabc hks hksc

theorem scanAux_zero (s : List Char) (pos : ℕ) : scanAux 0 s pos = [] := rfl

theorem scanAux_nil (fuel pos : ℕ) : scanAux fuel [] pos = [] := by
  cases fuel <;> rfl

theorem scanAux_some {s lab ks rest : List Char} (fuel pos : ℕ)
    (h : tryMatch s = some (lab, ks, rest)) :
    scanAux (fuel + 1) s pos
      = ⟨lab, ks, pos, pos + (s.length - rest.length)⟩ ::
          scanAux fuel rest (pos + (s.length - rest.length)) := by
  show (tryMatch s).elim _ _ = _
  rw [h]
  rfl

theorem scanAux_none {a : Char} {tail : List Char} (fuel pos : ℕ)
    (h : tryMatch (a :: tail) = none) :
    scanAux (fuel + 1) (a :: tail) pos = scanAux fuel tail (pos + 1) := by
  show (tryMatch (a :: tail)).elim _ _ = _
  rw [h]
  rfl

/-- Any fuel at least the string length computes the same scan. -/
theorem scanAux_fuel : ∀ (f1 f2 : ℕ) (s : List Char) (pos : ℕ),
    s.length ≤ f1 → s.length ≤ f2 → scanAux f1 s pos = scanAux f2 s pos := by
  intro f1
  induction f1 with
  | zero =>
    intro f2 s pos h1 _
    have : s = [] := List.length_eq_zero.mp (Nat.le_zero.mp h1)
    subst this
    rw [scanAux_nil, scanAux_nil]
  | succ f1' ih =>
    intro f2 s pos h1 h2
    cases s with
    | nil => rw [scanAux_nil, scanAux_nil]
    | cons a tail =>
      cases f2 with
      | zero => simp at h2
      | succ f2' =>
        cases h : tryMatch (a :: tail) with
        | some r =>
          obtain ⟨lab, ks, rest⟩ := r
          rw [scanAux_some f1' pos h, scanAux_some f2' pos h]
          have hlen := tryMatch_length h
          rw [List.length_cons] at h1 h2 hlen
          rw [ih f2' rest _ (by omega) (by omega)]
        | none =>
          rw [scanAux_none f1' pos h, scanAux_none f2' pos h]
          rw [List.length_cons] at h1 h2
          exact ih f2' tail (pos + 1) (by omega) (by omega)

theorem scanRaw_nil : scanRaw [] = [] := rfl

theorem scanRaw_some {s lab ks rest : List Char}
    (h : tryMatch s = some (lab, ks, rest)) :
    scanRaw s = ⟨lab, ks, 0, s.length - rest.length⟩ ::
        scanAux rest.length rest (s.length - rest.length) := by
  unfold scanRaw
  have hlen := tryMatch_length h
  obtain ⟨n, hn⟩ : ∃ n, s.length = n + 1 := ⟨s.length - 1, by omega⟩
  conv_lhs => rw [hn]
  rw [scanAux_some n 0 h, Nat.zero_add]
  congr 1
  exact scanAux_fuel n rest.length rest _ (by omega) (by omega)

theorem renderBoxes_noop {boxes : List Box} {w h : ℕ} {mode : String}
    {st : RenderState} (hcond : w = 0 ∨ h = 0 ∨ boxes = []) :
    renderBoxes boxes w h mode st = st := by
  unfold renderBoxes
  rcases hcond with h0 | h0 | h0 <;> simp [h0]

theorem renderBoxes_active {boxes : List Box} {w h : ℕ} {mode : String}
    {st : RenderState} (hw : w ≠ 0) (hh : h ≠ 0) (hb : boxes ≠ []) :
    renderBoxes boxes w h mode st =
      { lastBoxCount := boxes.length
        painted := st.painted ++ (boxes.drop st.lastBoxCount).map (paintGroup mode)
        viewBoxSet := true } := by
  unfold renderBoxes
  rw [if_neg]
  push_neg
  exact ⟨hw, hh, by simpa using hb⟩

theorem runPaints_nil (mode : String) (w h : ℕ) (st : RenderState) :
    runPaints mode w h [] st = st := rfl

theorem runPaints_cons (mode : String) (w h : ℕ) (bs : List Box)
    (rest : List (List Box)) (st : RenderState) :
    runPaints mode w h (bs :: rest) st
      = runPaints mode w h rest (renderBoxes bs w h mode st) := rfl

/-- Invariant of the incremental paint loop: if the overlay holds exactly
the boxes of `p` and the cursor equals `p.length`, then painting a chain of
prefix-growing lists leaves the overlay holding exactly the boxes of the
last list. -/
theorem runPaints_inv (mode : String) (w h : ℕ) (hw : w ≠ 0) (hh : h ≠ 0) :
    ∀ (lists : List (List Box)) (p : List Box) (st : RenderState),
      List.Chain (· <+: ·) p lists →
      st.painted.map (fun g => g.box) = p → st.lastBoxCount = p.length →
      (runPaints mode w h lists st).painted.map (fun g => g.box) = lists.getLastD p
      ∧ (runPaints mode w h lists st).lastBoxCount = (lists.getLastD p).length := by
  intro lists
  induction lists with
  | nil => intro p st _ h1 h2; exact ⟨h1, h2⟩
  | cons bs rest ih =>
    intro p st hchain h1 h2
    rw [List.chain_cons] at hchain
    obtain ⟨hpb, hchain2⟩ := hchain
    rw [List.getLastD_cons]
    by_cases hb : bs = []
    · subst hb
      have hp : p = [] := List.prefix_nil.mp hpb
      subst hp
      rw [runPaints_cons, renderBoxes_noop (Or.inr (Or.inr rfl))]
      exact ih [] st hchain2 h1 h2
    · rw [runPaints_cons, renderBoxes_active hw hh hb]
      apply ih bs
      · exact hchain2
      · simp only [List.map_append, List.map_map, h1, h2]
        have hmap : ((fun g => g.box) ∘ paintGroup mode) = (id : Box → Box) := by
          funext b; rfl
        rw [hmap, List.map_id]
        exact List.prefix_iff_eq_append.mp hpb
      · rfl

/-- C9: a paint call with a zero/unset target dimension or an empty
annotation sequence is a no-op: nothing is painted, nothing is raised, and
the render cursor is unchanged. -/
theorem paint_noop_when_not_ready (boxes : List Box) (w h : ℕ) (mode : String)
    (st : RenderState) (hcond : w = 0 ∨ h = 0 ∨ boxes = []) :
    renderBoxes boxes w h mode st = st :=
  renderBoxes_noop hcond

theorem paint_noop_when_not_ready_witness :
    renderBoxes [sampleTypeBox] 0 7 "ocr" ⟨3, [], true⟩ = ⟨3, [], true⟩ :=
  paint_noop_when_not_ready [sampleTypeBox] 0 7 "ocr" ⟨3, [], true⟩ (Or.inl rfl)

/-- C4: each coordinate is mapped independently and linearly by
`pixel = model / 999 * target`; the map is additive and homogeneous (hence
linear, with no clamping), the boundary box `(0,0,999,999)` maps onto an
800 by 600 surface exactly to `(0,0,800,600)`, and out-of-range model
coordinates scale proportionally past the target edge instead of being
clamped or rejected. -/
theorem scale_linear_no_clamp :
    (∀ (b : RatBox) (w h : ℚ), scaleBox b w h =
      ⟨b.x1 / 999 * w, b.y1 / 999 * h, b.x2 / 999 * w, b.y2 / 999 * h⟩)
    ∧ (∀ x y t : ℚ, scaleCoord (x + y) t = scaleCoord x t + scaleCoord y t)
    ∧ (∀ c x t : ℚ, scaleCoord (c * x) t = c * scaleCoord x t)
    ∧ scaleBox ⟨0, 0, 999, 999⟩ 800 600 = ⟨0, 0, 800, 600⟩
    ∧ scaleCoord 1998 800 = 1600
    ∧ scaleCoord (-999) 800 = -800 := by
  refine ⟨fun b w h => rfl, fun x y t => ?_, fun c x t => ?_, ?_, ?_, ?_⟩
  · unfold scaleCoord DEEPSEEK_COORD_MAX; ring
  · unfold scaleCoord DEEPSEEK_COORD_MAX; ring
  · unfold scaleBox scaleCoord DEEPSEEK_COORD_MAX
    norm_num
  · unfold scaleCoord DEEPSEEK_COORD_MAX; norm_num
  · unfold scaleCoord DEEPSEEK_COORD_MAX; norm_num

/-- C7: in `'ocr'` (plain-text extraction) mode an annotation is
interactive iff it is not a type label, with copy payload its label; in
`'document'` (structured document) mode iff it is a type label that is
final with non-empty trailing text, with copy payload the trailing text;
in every other mode it is non-interactive; and the sample type-label
annotation with trailing text `"Body"` is non-interactive in `'ocr'` mode
but interactive with payload `"Body"` in `'document'` mode. -/
theorem mode_interactivity :
    (∀ b : Box, boxInteraction "ocr" b = (!b.isType, b.content))
    ∧ (∀ b : Box, boxInteraction "document" b
        = (b.isType && b.isComplete && !b.textContent.isEmpty, b.textContent))
    ∧ (∀ (mode : String) (b : Box), mode ≠ "ocr" → mode ≠ "document" →
        boxInteraction mode b = (false, []))
    ∧ boxInteraction "ocr" sampleTypeBox = (false, "title".data)
    ∧ boxInteraction "document" sampleTypeBox = (true, "Body".data) := by
  refine ⟨fun b => ?_, fun b => ?_, fun mode b h1 h2 => ?_, by decide, by decide⟩
  · unfold boxInteraction
    simp
  · unfold boxInteraction
    simp
  · unfold boxInteraction
    rw [if_neg h1, if_neg h2]

theorem mode_interactivity_witness :
    boxInteraction "figure" sampleTypeBox = (false, []) :=
  mode_interactivity.2.2.1 "figure" sampleTypeBox (by decide) (by decide)

/-- C6: the render cursor is monotonically non-decreasing across paint
calls within one processing run (where the decoded annotation list only
grows, so the current cursor never exceeds the incoming list length), and
an ordinary paint call never resets a non-zero cursor to zero - only the
explicit clear paths assign zero. -/
theorem cursor_monotone_and_zero_only_by_reset :
    (∀ (boxes : List Box) (w h : ℕ) (mode : String) (st : RenderState),
      st.lastBoxCount ≤ boxes.length →
      st.lastBoxCount ≤ (renderBoxes boxes w h mode st).lastBoxCount)
    ∧ (∀ (boxes : List Box) (w h : ℕ) (mode : String) (st : RenderState),
      (renderBoxes boxes w h mode st).lastBoxCount = 0 → st.lastBoxCount = 0) := by
  constructor
  · intro boxes w h mode st hle
    unfold renderBoxes
    split
    · exact le_rfl
    · simpa using hle
  · intro boxes w h mode st h0
    unfold renderBoxes at h0
    split at h0
    · exact h0
    · rename_i hcond
      push_neg at hcond
      exact absurd h0 hcond.2.2

theorem cursor_monotone_and_zero_only_by_reset_witness :
    (⟨1, [], true⟩ : RenderState).lastBoxCount ≤
      (renderBoxes [sampleTypeBox, sampleTypeBox] 4 4 "ocr" ⟨1, [], true⟩).lastBoxCount :=
  cursor_monotone_and_zero_only_by_reset.1 [sampleTypeBox, sampleTypeBox] 4 4 "ocr"
    ⟨1, [], true⟩ (by decide)

/-- C5: with non-zero target dimensions and a non-empty annotation list a
paint call appends exactly the slice from the cursor to the end and sets
the cursor to the full list length; consequently, over any run of calls
whose annotation lists grow by prefix (starting from the empty overlay),
the overlay ends up holding each annotation of the final list exactly once
- no duplicates, no omissions - and the cursor equals the final length. -/
theorem paint_slice_and_exactly_once :
    (∀ (boxes : List Box) (w h : ℕ) (mode : String) (st : RenderState),
      w ≠ 0 → h ≠ 0 → boxes ≠ [] →
      renderBoxes boxes w h mode st =
        { lastBoxCount := boxes.length
          painted := st.painted ++ (boxes.drop st.lastBoxCount).map (paintGroup mode)
          viewBoxSet := true })
    ∧ (∀ (mode : String) (w h : ℕ) (lists : List (List Box)),
      w ≠ 0 → h ≠ 0 → List.Chain (· <+: ·) [] lists →
      (runPaints mode w h lists ⟨0, [], false⟩).painted.map (fun g => g.box)
          = lists.getLastD []
      ∧ (runPaints mode w h lists ⟨0, [], false⟩).lastBoxCount
          = (lists.getLastD []).length) := by
  constructor
  · intro boxes w h mode st hw hh hb
    exact renderBoxes_active hw hh hb
  · intro mode w h lists hw hh hchain
    exact runPaints_inv mode w h hw hh lists [] ⟨0, [], false⟩ hchain rfl rfl

theorem paint_slice_and_exactly_once_witness :
    (runPaints "ocr" 2 3 [[sampleTypeBox], [sampleTypeBox, sampleTypeBox]]
        ⟨0, [], false⟩).painted.map (fun g => g.box)
      = [[sampleTypeBox], [sampleTypeBox, sampleTypeBox]].getLastD []
    ∧ (runPaints "ocr" 2 3 [[sampleTypeBox], [sampleTypeBox, sampleTypeBox]]
        ⟨0, [], false⟩).lastBoxCount
      = ([[sampleTypeBox], [sampleTypeBox, sampleTypeBox]].getLastD []).length :=
  paint_slice_and_exactly_once.2 "ocr" 2 3
    [[sampleTypeBox], [sampleTypeBox, sampleTypeBox]] (by decide) (by decide)
    (by simp [List.chain_cons])

theorem buildBoxes_singleton (tok : List Char) (f : Bool) (m : RawMatch) :
    buildBoxes tok f [m] =
      (if h : (numericCoords m.coords).length = 4 then
        [mkBox4 m (numericCoords m.coords) h (lastTrailing tok m)
          (f && !(lastTrailing tok m).isEmpty)]
       else []) := rfl

theorem buildBoxes_cons_cons (tok : List Char) (f : Bool) (m next : RawMatch)
    (rest : List RawMatch) :
    buildBoxes tok f (m :: next :: rest) =
      (if h : (numericCoords m.coords).length = 4 then
        [mkBox4 m (numericCoords m.coords) h (midTrailing tok m next)
          (!(midTrailing tok m next).isEmpty)]
       else []) ++ buildBoxes tok f (next :: rest) := rfl

theorem buildBoxes_length (tok : List Char) (f : Bool) :
    ∀ ms : List RawMatch,
      (buildBoxes tok f ms).length
        = (ms.filter (fun m => decide ((numericCoords m.coords).length = 4))).length := by
  intro ms
  induction ms with
  | nil => rfl
  | cons m rest ih =>
    cases rest with
    | nil =>
      rw [buildBoxes_singleton]
      by_cases h : (numericCoords m.coords).length = 4
      · simp [h, List.filter_cons]
      · simp [h, List.filter_cons]
    | cons next rest2 =>
      rw [buildBoxes_cons_cons]
      by_cases h : (numericCoords m.coords).length = 4
      · simp [h, List.filter_cons, ih]
      · simp [h, List.filter_cons, ih]

/-- C3: a raw match yields an annotation exactly when splitting its
coordinate text on commas, trimming, parsing as floats and discarding
non-numeric tokens leaves exactly 4 numbers (the decoded box count equals
the count of such matches, for every stream and completion flag), and the
stream whose single match carries only three numbers decodes to the empty
annotation sequence - silently, since the decoder is a total function. -/
theorem box_count_eq_four_numeric :
    (∀ (s : List Char) (flag : Bool),
      (parseBoxesFromTokens s flag).length
        = ((collectMatches s).filter
            (fun m => decide ((numericCoords m.coords).length = 4))).length)
    ∧ parseBoxesFromTokens "<|ref|>text<|/ref|><|det|>[[1,2,3]]<|/det|>".data true = []
    ∧ parseBoxesFromTokens "<|ref|>text<|/ref|><|det|>[[1,2,3]]<|/det|>".data false = [] := by
  refine ⟨fun s flag => buildBoxes_length s flag (collectMatches s), by decide, by decide⟩

theorem scanAux_mem_shape : ∀ (fuel : ℕ) (s : List Char) (pos : ℕ) (e : RawCapture),
    e ∈ scanAux fuel s pos →
    e.label ≠ [] ∧ (∀ c ∈ e.label, c ≠ '<')
    ∧ e.coords ≠ [] ∧ (∀ c ∈ e.coords, c ≠ ']') := by
  intro fuel
  induction fuel with
  | zero => intro s pos e he; rw [scanAux_zero] at he; simp at he
  | succ f ih =>
    intro s pos e he
    cases s with
    | nil => rw [scanAux_nil] at he; simp at he
    | cons a tail =>
      cases h : tryMatch (a :: tail) with
      | some r =>
        obtain ⟨lab, ks, rest⟩ := r
        rw [scanAux_some f pos h] at he
        rcases List.mem_cons.mp he with he1 | he2
        · obtain ⟨-, hl, hlc, hk, hkc⟩ := tryMatch_some_decomp h
          subst he1
          exact ⟨hl, hlc, hk, hkc⟩
        · exact ih rest _ e he2
      | none =>
        rw [scanAux_none f pos h] at he
        exact ih tail (pos + 1) e he

/-- C10: a tagged region is extracted only when its captured label text is
non-empty and free of the character `<` and its captured coordinate text
is non-empty and free of the character `]` (the regex classes `[^<]+` and
`[^\]]+`); in particular a region whose label contains `<` is never
extracted even though all its opening and closing tags are present. -/
theorem extraction_requires_clean_label_coords :
    (∀ (s : List Char) (e : RawCapture), e ∈ scanRaw s →
      e.label ≠ [] ∧ (∀ c ∈ e.label, c ≠ '<')
      ∧ e.coords ≠ [] ∧ (∀ c ∈ e.coords, c ≠ ']'))
    ∧ scanRaw "<|ref|>a<b<|/ref|><|det|>[[1,2,3,4]]<|/det|>".data = [] := by
  exact ⟨fun s e he => scanAux_mem_shape s.length s 0 e he, by decide⟩

theorem extraction_requires_clean_label_coords_witness :
    (⟨"t".data, "1".data, 0, 36⟩ : RawCapture).label ≠ []
    ∧ (∀ c ∈ (⟨"t".data, "1".data, 0, 36⟩ : RawCapture).label, c ≠ '<')
    ∧ (⟨"t".data, "1".data, 0, 36⟩ : RawCapture).coords ≠ []
    ∧ (∀ c ∈ (⟨"t".data, "1".data, 0, 36⟩ : RawCapture).coords, c ≠ ']') :=
  extraction_requires_clean_label_coords.1
    "<|ref|>t<|/ref|><|det|>[[1]]<|/det|>".data ⟨"t".data, "1".data, 0, 36⟩ (by decide)

/-- Splitting the decode at any non-empty tail of the match list: the boxes
of the leading matches all take the non-last branch, whose completion bit
is exactly "trailing text non-empty". -/
theorem buildBoxes_split (tok : List Char) (f : Bool) :
    ∀ (xs ms : List RawMatch), ms ≠ [] →
      ∃ pre, buildBoxes tok f (xs ++ ms) = pre ++ buildBoxes tok f ms
        ∧ ∀ b ∈ pre, b.isComplete = !b.textContent.isEmpty := by
  intro xs
  induction xs with
  | nil => intro ms _; exact ⟨[], rfl, by simp⟩
  | cons x xs ih =>
    intro ms hms
    obtain ⟨y, L, hyL⟩ : ∃ y L, xs ++ ms = y :: L := by
      cases xs with
      | nil =>
        cases ms with
        | nil => exact absurd rfl hms
        | cons a b => exact ⟨a, b, by simp⟩
      | cons a b => exact ⟨a, b ++ ms, by simp⟩
    obtain ⟨pre, hpre, hcomp⟩ := ih ms hms
    refine ⟨(if h : (numericCoords x.coords).length = 4 then
        [mkBox4 x (numericCoords x.coords) h (midTrailing tok x y)
          (!(midTrailing tok x y).isEmpty)] else []) ++ pre, ?_, ?_⟩
    · show buildBoxes tok f (x :: (xs ++ ms)) = _
      rw [hyL, buildBoxes_cons_cons, ← hyL, hpre, List.append_assoc]
    · intro b hb
      rcases List.mem_append.mp hb with hb1 | hb2
      · by_cases h : (numericCoords x.coords).length = 4
        · rw [dif_pos h] at hb1
          rw [List.mem_singleton] at hb1
          subst hb1
          rfl
        · rw [dif_neg h] at hb1
          simp at hb1
      · exact hcomp b hb2

/-- C1 counterexample: in `cexStreamA` the trailing raw match is dropped
(only three numbers), so the single - hence last - decoded annotation
comes from a non-last raw match; decoding with `streamIsComplete = false`
still reports it final with non-empty trailing text, while the claim
demands `isFinal = false` for the last annotation whenever the stream is
not complete. -/
theorem isComplete_last_annotation_cex :
    (parseBoxesFromTokens cexStreamA false).getLast?.map
        (fun b => (b.isComplete, !b.textContent.isEmpty)) = some (true, true)
    ∧ (parseBoxesFromTokens cexStreamA false).length = 1 := by decide

/-- C1 (amended): split the raw match list at its last element `m`.  Every
annotation decoded from the earlier matches has `isFinal` true iff its
trailing text is non-empty, and the annotation decoded from the last raw
match (when its coordinates parse) has `isFinal` true iff
`streamIsComplete` and its trailing text is non-empty.  (The original
claim spoke of the last *annotation*; when the last raw match is dropped,
the last annotation comes from a non-last raw match and is not gated on
`streamIsComplete`.) -/
theorem isComplete_by_raw_match_position (s : List Char) (flag : Bool)
    (xs : List RawMatch) (m : RawMatch) (hms : collectMatches s = xs ++ [m]) :
    ∃ pre, parseBoxesFromTokens s flag = pre ++ buildBoxes s flag [m]
      ∧ (∀ b ∈ pre, b.isComplete = !b.textContent.isEmpty)
      ∧ (∀ b ∈ buildBoxes s flag [m],
          b.isComplete = (flag && !b.textContent.isEmpty)) := by
  obtain ⟨pre, hpre, hcomp⟩ := buildBoxes_split s flag xs [m] (by simp)
  refine ⟨pre, ?_, hcomp, ?_⟩
  · show buildBoxes s flag (collectMatches s) = _
    rw [hms]
    exact hpre
  · intro b hb
    rw [buildBoxes_singleton] at hb
    by_cases h : (numericCoords m.coords).length = 4
    · rw [dif_pos h] at hb
      rw [List.mem_singleton] at hb
      subst hb
      rfl
    · rw [dif_neg h] at hb
      simp at hb

theorem isComplete_by_raw_match_position_witness :
    ∃ pre, parseBoxesFromTokens cexStreamA false
        = pre ++ buildBoxes cexStreamA false [⟨"b".data, "1,2,3".data, 43, 83⟩]
      ∧ (∀ b ∈ pre, b.isComplete = !b.textContent.isEmpty)
      ∧ (∀ b ∈ buildBoxes cexStreamA false [⟨"b".data, "1,2,3".data, 43, 83⟩],
          b.isComplete = (false && !b.textContent.isEmpty)) :=
  isComplete_by_raw_match_position cexStreamA false
    [⟨"a".data, "1,2,3,4".data, 0, 42⟩] ⟨"b".data, "1,2,3".data, 43, 83⟩ (by decide)

/-- C2 counterexample: in `cexStreamB` the single match ends at offset 42
and the stream continues with a space and `x`; the claim says
`trailingText` is exactly that substring `" x"`, but the decoder stores
the trimmed `"x"`. -/
theorem trailingText_untrimmed_cex :
    (collectMatches cexStreamB).map (fun m => m.matchEnd) = [42]
    ∧ (parseBoxesFromTokens cexStreamB true).map (fun b => b.textContent) = [['x']]
    ∧ cexStreamB.drop 42 = [' ', 'x']
    ∧ (['x'] : List Char) ≠ [' ', 'x'] := by decide

/-- C2 (amended): an annotation's `trailingText` is the whitespace-trimmed
substring of the stream from its raw match's end offset to the next raw
match's start offset, or to the end of the stream when its raw match is
the last one (the original claim omitted the trimming and measured to the
next annotation rather than the next raw match). -/
theorem trailingText_trimmed_substring :
    (∀ (s : List Char) (flag : Bool) (xs : List RawMatch) (m next : RawMatch)
        (ys : List RawMatch),
      collectMatches s = xs ++ m :: next :: ys →
      ∀ (h4 : (numericCoords m.coords).length = 4),
      ∃ pre, parseBoxesFromTokens s flag =
        pre ++ mkBox4 m (numericCoords m.coords) h4
            (jsTrim ((s.take next.matchStart).drop m.matchEnd))
            (!(jsTrim ((s.take next.matchStart).drop m.matchEnd)).isEmpty)
          :: buildBoxes s flag (next :: ys))
    ∧ (∀ (s : List Char) (flag : Bool) (xs : List RawMatch) (m : RawMatch),
      collectMatches s = xs ++ [m] →
      ∀ (h4 : (numericCoords m.coords).length = 4),
      ∃ pre, parseBoxesFromTokens s flag =
        pre ++ [mkBox4 m (numericCoords m.coords) h4
            (jsTrim (s.drop m.matchEnd))
            (flag && !(jsTrim (s.drop m.matchEnd)).isEmpty)]) := by
  constructor
  · intro s flag xs m next ys hms h4
    obtain ⟨pre, hpre, -⟩ := buildBoxes_split s flag xs (m :: next :: ys) (by simp)
    refine ⟨pre, ?_⟩
    show buildBoxes s flag (collectMatches s) = _
    rw [hms, hpre, buildBoxes_cons_cons, dif_pos h4]
    simp [midTrailing]
  · intro s flag xs m hms h4
    obtain ⟨pre, hpre, -⟩ := buildBoxes_split s flag xs [m] (by simp)
    refine ⟨pre, ?_⟩
    show buildBoxes s flag (collectMatches s) = _
    rw [hms, hpre, buildBoxes_singleton, dif_pos h4]
    simp [lastTrailing]

theorem trailingText_trimmed_substring_witness :
    ∃ pre, parseBoxesFromTokens cexStreamB true =
      pre ++ [mkBox4 ⟨"a".data, "1,2,3,4".data, 0, 42⟩
          (numericCoords "1,2,3,4".data) (by decide)
          (jsTrim (cexStreamB.drop 42))
          (true && !(jsTrim (cexStreamB.drop 42)).isEmpty)] :=
  trailingText_trimmed_substring.2 cexStreamB true []
    ⟨"a".data, "1,2,3,4".data, 0, 42⟩ (by decide) (by decide)

/-! ### Stability of the scan under stream growth (for C8)

The key combinatorial fact: inside one full pattern occurrence
`<|ref|> LAB <|/ref|><|det|>[[ KS ]]<|/det|>` (with `LAB` free of `<` and
`KS` free of `]`), the closing literal `]]<|/det|>` occurs only at the very
end.  Hence an attempt that ran off the live edge of the stream can never
overlap a complete match, and growing the stream only appends matches. -/

theorem patO_ref {lab ks : List Char} {i : ℕ} (h : i < 7) :
    (refOpenTag ++ lab ++ refCloseDetOpen ++ ks ++ detCloseTag)[i]? = refOpenTag[i]? := by
  simp only [List.getElem?_append, List.length_append,
    refOpenTag_length, refCloseDetOpen_length, detCloseTag_length]
  split_ifs <;> first | rfl | omega

theorem patO_lab {lab ks : List Char} {i : ℕ} (h7 : 7 ≤ i) (h : i < 7 + lab.length) :
    (refOpenTag ++ lab ++ refCloseDetOpen ++ ks ++ detCloseTag)[i]? = lab[i - 7]? := by
  simp only [List.getElem?_append, List.length_append,
    refOpenTag_length, refCloseDetOpen_length, detCloseTag_length]
  split_ifs <;> first | rfl | omega

theorem patO_mid {lab ks : List Char} {i : ℕ} (h1 : 7 + lab.length ≤ i)
    (h : i < 24 + lab.length) :
    (refOpenTag ++ lab ++ refCloseDetOpen ++ ks ++ detCloseTag)[i]?
      = refCloseDetOpen[i - (7 + lab.length)]? := by
  simp only [List.getElem?_append, List.length_append,
    refOpenTag_length, refCloseDetOpen_length, detCloseTag_length]
  split_ifs <;> first | rfl | omega

theorem patO_ks {lab ks : List Char} {i : ℕ} (h1 : 24 + lab.length ≤ i)
    (h : i < 24 + lab.length + ks.length) :
    (refOpenTag ++ lab ++ refCloseDetOpen ++ ks ++ detCloseTag)[i]?
      = ks[i - (7 + lab.length + 17)]? := by
  simp only [List.getElem?_append, List.length_append,
    refOpenTag_length, refCloseDetOpen_length, detCloseTag_length]
  split_ifs <;> first | rfl | omega

/-- The closing literal `]]<|/det|>` occurs in a full pattern occurrence
only as its final ten characters. -/
theorem close_tag_unique {lab ks A B : List Char}
    (hlabc : ∀ c ∈ lab, c ≠ '<') (hksc : ∀ c ∈ ks, c ≠ ']')
    (heq : refOpenTag ++ lab ++ refCloseDetOpen ++ ks ++ detCloseTag
         = A ++ detCloseTag ++ B) :
    B = [] := by
  have hget : ∀ i, i < 10 →
      (refOpenTag ++ lab ++ refCloseDetOpen ++ ks ++ detCloseTag)[A.length + i]?
        = detCloseTag[i]? := by
    intro i hi
    rw [heq]
    rw [List.getElem?_append_left
      (by simp only [List.length_append, detCloseTag_length]; omega)]
    rw [List.getElem?_append_right (by omega)]
    congr 1
    omega
  have hlenEq : 34 + lab.length + ks.length = A.length + (10 + B.length) := by
    have h := congrArg List.length heq
    simp only [List.length_append, refOpenTag_length, refCloseDetOpen_length,
      detCloseTag_length] at h
    omega
  have h0 : (refOpenTag ++ lab ++ refCloseDetOpen ++ ks ++ detCloseTag)[A.length]?
      = some ']' := by
    have := (hget 0 (by omega)).trans (by decide : detCloseTag[0]? = some ']')
    simpa using this
  have h2 : (refOpenTag ++ lab ++ refCloseDetOpen ++ ks ++ detCloseTag)[A.length + 2]?
      = some '<' :=
    (hget 2 (by omega)).trans (by decide : detCloseTag[2]? = some '<')
  have h5 : (refOpenTag ++ lab ++ refCloseDetOpen ++ ks ++ detCloseTag)[A.length + 5]?
      = some 'd' :=
    (hget 5 (by omega)).trans (by decide : detCloseTag[5]? = some 'd')
  rcases Nat.lt_or_ge A.length 7 with hc | hc
  · rw [patO_ref hc] at h0
    exact absurd (List.getElem?_mem h0) (by decide)
  rcases Nat.lt_or_ge A.length (7 + lab.length) with hc2 | hc2
  · rcases Nat.lt_or_ge (A.length + 2) (7 + lab.length) with hc3 | hc3
    · rw [patO_lab (by omega) hc3] at h2
      exact absurd rfl (hlabc '<' (List.getElem?_mem h2))
    · rw [patO_mid (by omega) (by omega)] at h5
      have hidx : A.length + 5 - (7 + lab.length) = 3
          ∨ A.length + 5 - (7 + lab.length) = 4 := by omega
      rcases hidx with h' | h' <;> rw [h'] at h5
      · exact absurd h5 (by decide)
      · exact absurd h5 (by decide)
  rcases Nat.lt_or_ge A.length (24 + lab.length) with hc3 | hc3
  · rw [patO_mid hc2 hc3] at h0
    exact absurd (List.getElem?_mem h0) (by decide)
  rcases Nat.lt_or_ge A.length (24 + lab.length + ks.length) with hc4 | hc4
  · rw [patO_ks hc3 hc4] at h0
    exact absurd rfl (hksc ']' (List.getElem?_mem h0))
  · have : B.length = 0 := by omega
    exact List.length_eq_zero.mp this

/-- If the pattern occurrence extends strictly past the end of `s` (an
attempt that ran off the live edge), then no suffix of `s` matches: a
complete match inside `s` would put the closing literal strictly inside
the occurrence, contradicting `close_tag_unique`. -/
theorem tryMatch_none_of_proper_prefix {s u lab ks : List Char}
    (hu : u ≠ [])
    (hO : s ++ u = refOpenTag ++ lab ++ refCloseDetOpen ++ ks ++ detCloseTag)
    (hlabc : ∀ c ∈ lab, c ≠ '<') (hksc : ∀ c ∈ ks, c ≠ ']') :
    ∀ j, tryMatch (s.drop j) = none := by
  intro j
  cases h : tryMatch (s.drop j) with
  | none => rfl
  | some r =>
    obtain ⟨l', k', r'⟩ := r
    obtain ⟨hs, -, -, -, -⟩ := tryMatch_some_decomp h
    have hkey : refOpenTag ++ lab ++ refCloseDetOpen ++ ks ++ detCloseTag
        = (s.take j ++ refOpenTag ++ l' ++ refCloseDetOpen ++ k') ++ detCloseTag
            ++ (r' ++ u) := by
      rw [← hO]
      conv_lhs => rw [← List.take_append_drop j s]
      rw [hs]
      simp [List.append_assoc]
    have hB := close_tag_unique hlabc hksc hkey
    rw [List.append_eq_nil] at hB
    exact absurd hB.2 hu

theorem scanAux_nil_of_no_match : ∀ (fuel : ℕ) (s : List Char) (pos : ℕ),
    (∀ j, tryMatch (s.drop j) = none) → scanAux fuel s pos = [] := by
  intro fuel
  induction fuel with
  | zero => intro s pos _; rfl
  | succ f ih =>
    intro s pos hno
    cases s with
    | nil => exact scanAux_nil _ _
    | cons a tail =>
      have h0 : tryMatch (a :: tail) = none := by
        have := hno 0
        rwa [List.drop_zero] at this
      rw [scanAux_none f pos h0]
      apply ih
      intro j
      have := hno (j + 1)
      rwa [List.drop_succ_cons] at this

/-- A match of the extended stream that fits inside `s` was already a match
of `s`. -/
theorem tryMatch_some_of_long {s t lab ks rest : List Char}
    (h : tryMatch (s ++ t) = some (lab, ks, rest))
    (hlen : 34 + lab.length + ks.length ≤ s.length) :
    tryMatch s = some (lab, ks, s.drop (34 + lab.length + ks.length)) := by
  obtain ⟨hs, hlab, hlabc, hks, hksc⟩ := tryMatch_some_decomp h
  have hOlen : (refOpenTag ++ lab ++ refCloseDetOpen ++ ks ++ detCloseTag).length
      = 34 + lab.length + ks.length := by
    simp only [List.length_append, refOpenTag_length, refCloseDetOpen_length,
      detCloseTag_length]
    omega
  have htake : s.take (34 + lab.length + ks.length)
      = refOpenTag ++ lab ++ refCloseDetOpen ++ ks ++ detCloseTag := by
    have h1 : (s ++ t).take (34 + lab.length + ks.length)
        = refOpenTag ++ lab ++ refCloseDetOpen ++ ks ++ detCloseTag := by
      have : s ++ t = (refOpenTag ++ lab ++ refCloseDetOpen ++ ks ++ detCloseTag)
          ++ rest := by
        rw [hs]
      rw [this]
      exact List.take_left' hOlen
    rw [List.take_append_of_le_length hlen] at h1
    exact h1
  have hsplit : s = refOpenTag ++ lab ++ refCloseDetOpen ++ ks ++ detCloseTag
      ++ s.drop (34 + lab.length + ks.length) := by
    conv_lhs => rw [← List.take_append_drop (34 + lab.length + ks.length) s]
    rw [htake]
  conv_lhs => rw [hsplit]
  exact tryMatch_of_decomp hlab hlabc hks hksc

/-- When the matched occurrence overruns `s`, exhibit the non-empty part of
the occurrence that lies beyond `s`. -/
theorem proper_prefix_of_short {s t lab ks rest : List Char}
    (hdec : s ++ t = refOpenTag ++ lab ++ refCloseDetOpen ++ ks ++ detCloseTag ++ rest)
    (hshort : s.length < 34 + lab.length + ks.length) :
    ∃ u, u ≠ [] ∧ s ++ u = refOpenTag ++ lab ++ refCloseDetOpen ++ ks ++ detCloseTag := by
  have hOlen : (refOpenTag ++ lab ++ refCloseDetOpen ++ ks ++ detCloseTag).length
      = 34 + lab.length + ks.length := by
    simp only [List.length_append, refOpenTag_length, refCloseDetOpen_length,
      detCloseTag_length]
    omega
  have hlen2 : 34 + lab.length + ks.length ≤ s.length + t.length := by
    have h := congrArg List.length hdec
    simp only [List.length_append, refOpenTag_length, refCloseDetOpen_length,
      detCloseTag_length] at h
    omega
  refine ⟨t.take (34 + lab.length + ks.length - s.length), ?_, ?_⟩
  · have : (t.take (34 + lab.length + ks.length - s.length)).length
        = 34 + lab.length + ks.length - s.length := by
      rw [List.length_take]
      omega
    intro hnil
    rw [hnil] at this
    simp at this
    omega
  · have h1 : (s ++ t).take (34 + lab.length + ks.length)
        = refOpenTag ++ lab ++ refCloseDetOpen ++ ks ++ detCloseTag := by
      have hx : s ++ t = (refOpenTag ++ lab ++ refCloseDetOpen ++ ks ++ detCloseTag)
          ++ rest := by
        rw [hdec]
      rw [hx]
      exact List.take_left' hOlen
    rw [List.take_append_eq_append_take, List.take_of_length_le (by omega)] at h1
    exact h1

/-- Growing the stream only appends matches: the scan of `s ++ t` begins
with exactly the scan of `s`. -/
theorem scanAux_append : ∀ (fuel : ℕ) (s t : List Char) (pos : ℕ),
    s.length ≤ fuel →
    ∃ ex, scanAux (s ++ t).length (s ++ t) pos = scanAux fuel s pos ++ ex := by
  intro fuel
  induction fuel with
  | zero =>
    intro s t pos h1
    have hs : s = [] := List.length_eq_zero.mp (Nat.le_zero.mp h1)
    subst hs
    exact ⟨scanAux t.length t pos, by simp [scanAux_zero]⟩
  | succ f ih =>
    intro s t pos h1
    cases hsm : tryMatch s with
    | some r =>
      obtain ⟨lab, ks, rest⟩ := r
      have hst : tryMatch (s ++ t) = some (lab, ks, rest ++ t) := tryMatch_append hsm
      have hlen := tryMatch_length hsm
      obtain ⟨n, hn⟩ : ∃ n, (s ++ t).length = n + 1 :=
        ⟨(s ++ t).length - 1, by simp only [List.length_append]; omega⟩
      rw [hn, scanAux_some n pos hst, scanAux_some f pos hsm]
      have hpos : (s ++ t).length - (rest ++ t).length = s.length - rest.length := by
        simp only [List.length_append]
        omega
      rw [hpos]
      obtain ⟨ex, hex⟩ := ih rest t (pos + (s.length - rest.length)) (by omega)
      refine ⟨ex, ?_⟩
      rw [List.cons_append]
      congr 1
      rw [← hex]
      apply scanAux_fuel
      · simp only [List.length_append] at hn ⊢
        omega
      · exact le_refl _
    | none =>
      cases s with
      | nil =>
        exact ⟨scanAux t.length t pos, by simp [scanAux_nil]⟩
      | cons a tail =>
        cases hst : tryMatch (a :: tail ++ t) with
        | none =>
          obtain ⟨n, hn⟩ : ∃ n, (a :: tail ++ t).length = n + 1 :=
            ⟨(tail ++ t).length, by simp⟩
          rw [hn]
          rw [show a :: tail ++ t = a :: (tail ++ t) from rfl] at hst ⊢
          rw [scanAux_none n pos hst, scanAux_none f pos hsm]
          obtain ⟨ex, hex⟩ := ih tail t (pos + 1)
            (by simp only [List.length_cons] at h1; omega)
          refine ⟨ex, ?_⟩
          rw [← hex]
          apply scanAux_fuel
          · simp only [List.length_cons, List.length_append] at hn ⊢
            omega
          · exact le_refl _
        | some r =>
          obtain ⟨lab, ks, rest'⟩ := r
          obtain ⟨hdec, hlab, hlabc, hks, hksc⟩ := tryMatch_some_decomp hst
          by_cases hle : 34 + lab.length + ks.length ≤ (a :: tail).length
          · exact absurd (tryMatch_some_of_long hst hle) (by rw [hsm]; intro hc; cases hc)
          · push_neg at hle
            obtain ⟨u, hu, hOeq⟩ := proper_prefix_of_short hdec hle
            have hnone := tryMatch_none_of_proper_prefix hu hOeq hlabc hksc
            have hzero : scanAux (f + 1) (a :: tail) pos = [] :=
              scanAux_nil_of_no_match (f + 1) (a :: tail) pos hnone
            rw [hzero]
            exact ⟨scanAux (a :: tail ++ t).length (a :: tail ++ t) pos, rfl⟩

theorem scanRaw_append (s t : List Char) :
    ∃ ex, scanRaw (s ++ t) = scanRaw s ++ ex :=
  scanAux_append s.length s t 0 (le_refl _)

theorem collectMatches_append (s t : List Char) :
    ∃ ex, collectMatches (s ++ t) = collectMatches s ++ ex := by
  obtain ⟨ex, hex⟩ := scanRaw_append s t
  refine ⟨ex.map (fun e => ⟨jsTrim e.label, e.coords, e.mStart, e.mEnd⟩), ?_⟩
  rw [collectMatches, hex, List.map_append]
  rfl

theorem scanAux_offsets : ∀ (fuel : ℕ) (s : List Char) (pos : ℕ) (e : RawCapture),
    e ∈ scanAux fuel s pos →
    pos ≤ e.mStart ∧ e.mStart ≤ e.mEnd ∧ e.mEnd ≤ pos + s.length := by
  intro fuel
  induction fuel with
  | zero => intro s pos e he; rw [scanAux_zero] at he; simp at he
  | succ f ih =>
    intro s pos e he
    cases s with
    | nil => rw [scanAux_nil] at he; simp at he
    | cons a tail =>
      cases h : tryMatch (a :: tail) with
      | some r =>
        obtain ⟨lab, ks, rest⟩ := r
        have hlen := tryMatch_length h
        rw [scanAux_some f pos h] at he
        rcases List.mem_cons.mp he with he1 | he2
        · subst he1
          refine ⟨le_refl _, Nat.le_add_right _ _, ?_⟩
          show pos + ((a :: tail).length - rest.length) ≤ pos + (a :: tail).length
          omega
        · obtain ⟨ha, hb, hc⟩ := ih rest _ e he2
          refine ⟨by omega, hb, by omega⟩
      | none =>
        rw [scanAux_none f pos h] at he
        obtain ⟨ha, hb, hc⟩ := ih tail (pos + 1) e he
        refine ⟨by omega, hb, ?_⟩
        simp only [List.length_cons]
        omega

theorem collectMatches_offsets {s : List Char} {m : RawMatch}
    (hm : m ∈ collectMatches s) :
    m.matchStart ≤ s.length ∧ m.matchEnd ≤ s.length := by
  rw [collectMatches, List.mem_map] at hm
  obtain ⟨e, he, hme⟩ := hm
  obtain ⟨h1, h2, h3⟩ := scanAux_offsets s.length s 0 e he
  subst hme
  simp only
  omega

/-- Extending the stream (and the match list) does not change the boxes of
the matches before the last match of the original stream. -/
theorem buildBoxes_extend {tok t : List Char} {f f2 : Bool} :
    ∀ (xs : List RawMatch) (m : RawMatch) (ex : List RawMatch),
      (∀ x ∈ xs ++ [m], x.matchStart ≤ tok.length) →
      ∃ pre,
        buildBoxes tok f (xs ++ [m]) = pre ++ buildBoxes tok f [m]
        ∧ buildBoxes (tok ++ t) f2 (xs ++ m :: ex)
            = pre ++ buildBoxes (tok ++ t) f2 (m :: ex) := by
  intro xs
  induction xs with
  | nil => intro m ex _; exact ⟨[], rfl, rfl⟩
  | cons x xs ih =>
    intro m ex hstart
    obtain ⟨y, L, hyL⟩ : ∃ y L, xs ++ [m] = y :: L := by
      cases xs with
      | nil => exact ⟨m, [], rfl⟩
      | cons a b => exact ⟨a, b ++ [m], rfl⟩
    have hyL2 : xs ++ m :: ex = y :: (L ++ ex) := by
      have : xs ++ m :: ex = (xs ++ [m]) ++ ex := by simp
      rw [this, hyL]
      rfl
    have hy : y.matchStart ≤ tok.length := by
      have hmem : y ∈ xs ++ [m] := by
        rw [hyL]
        exact List.mem_cons_self y L
      exact hstart y (List.mem_cons_of_mem x hmem)
    have hmid : midTrailing (tok ++ t) x y = midTrailing tok x y := by
      unfold midTrailing
      rw [List.take_append_of_le_length hy]
    obtain ⟨pre, hp1, hp2⟩ := ih m ex
      (fun z hz => hstart z (List.mem_cons_of_mem x hz))
    refine ⟨(if h : (numericCoords x.coords).length = 4 then
        [mkBox4 x (numericCoords x.coords) h (midTrailing tok x y)
          (!(midTrailing tok x y).isEmpty)] else []) ++ pre, ?_, ?_⟩
    · show buildBoxes tok f (x :: (xs ++ [m])) = _
      rw [hyL, buildBoxes_cons_cons, ← hyL, hp1, List.append_assoc]
    · show buildBoxes (tok ++ t) f2 (x :: (xs ++ m :: ex)) = _
      rw [hyL2, buildBoxes_cons_cons, hmid, ← hyL2, hp2, List.append_assoc]

/-- C8: appending text to the stream only appends raw matches, and the
decoded annotation sequence of the original stream is prefix-consistent
with that of the grown stream: all annotations except possibly the last
one are unchanged, and the box of the last annotation's match survives
with every field preserved except its `trailingText` / `isFinal`. -/
theorem decode_append_stable (s t : List Char) (flag flag2 : Bool) :
    (∃ ex, collectMatches (s ++ t) = collectMatches s ++ ex)
    ∧ (∃ pre post post2,
        parseBoxesFromTokens s flag = pre ++ post
        ∧ post.length ≤ 1
        ∧ parseBoxesFromTokens (s ++ t) flag2 = pre ++ post2
        ∧ ∀ b ∈ post, ∃ b2 rest2, post2 = b2 :: rest2
            ∧ b2.content = b.content ∧ b2.isType = b.isType ∧ b2.type = b.type
            ∧ b2.x1 = b.x1 ∧ b2.y1 = b.y1 ∧ b2.x2 = b.x2 ∧ b2.y2 = b.y2) := by
  obtain ⟨ex, hex⟩ := collectMatches_append s t
  refine ⟨⟨ex, hex⟩, ?_⟩
  rcases List.eq_nil_or_concat (collectMatches s) with hms | ⟨xs, m, hms⟩
  · refine ⟨[], [], parseBoxesFromTokens (s ++ t) flag2, ?_, by simp, by simp, by simp⟩
    show buildBoxes s flag (collectMatches s) = [] ++ []
    rw [hms]
    rfl
  · rw [List.concat_eq_append] at hms
    have hstart : ∀ x ∈ xs ++ [m], x.matchStart ≤ s.length := by
      intro x hx
      have hx2 : x ∈ collectMatches s := by rw [hms]; exact hx
      exact (collectMatches_offsets hx2).1
    obtain ⟨pre, hp1, hp2⟩ :=
      @buildBoxes_extend s t flag flag2 xs m ex hstart
    refine ⟨pre, buildBoxes s flag [m], buildBoxes (s ++ t) flag2 (m :: ex),
      ?_, ?_, ?_, ?_⟩
    · show buildBoxes s flag (collectMatches s) = _
      rw [hms]
      exact hp1
    · rw [buildBoxes_singleton]
      split <;> simp
    · show buildBoxes (s ++ t) flag2 (collectMatches (s ++ t)) = _
      rw [hex, hms]
      have hx : (xs ++ [m]) ++ ex = xs ++ m :: ex := by simp
      rw [hx]
      exact hp2
    · intro b hb
      rw [buildBoxes_singleton] at hb
      by_cases h4 : (numericCoords m.coords).length = 4
      · rw [dif_pos h4] at hb
        rw [List.mem_singleton] at hb
        subst hb
        cases ex with
        | nil =>
          refine ⟨mkBox4 m (numericCoords m.coords) h4 (lastTrailing (s ++ t) m)
            (flag2 && !(lastTrailing (s ++ t) m).isEmpty), [],
            ?_, rfl, rfl, rfl, rfl, rfl, rfl, rfl⟩
          rw [buildBoxes_singleton, dif_pos h4]
        | cons e ex' =>
          refine ⟨mkBox4 m (numericCoords m.coords) h4 (midTrailing (s ++ t) m e)
            (!(midTrailing (s ++ t) m e).isEmpty),
            buildBoxes (s ++ t) flag2 (e :: ex'),
            ?_, rfl, rfl, rfl, rfl, rfl, rfl, rfl⟩
          rw [buildBoxes_cons_cons, dif_pos h4]
          rfl
      · rw [dif_neg h4] at hb
        simp at hb

theorem decode_append_stable_witness :
    (∃ ex, collectMatches ("<|ref|>a<|/ref|><|det|>[[1,2,3,4]]<|/det|>".data ++ "XY".data)
        = collectMatches "<|ref|>a<|/ref|><|det|>[[1,2,3,4]]<|/det|>".data ++ ex)
    ∧ (∃ pre post post2,
        parseBoxesFromTokens "<|ref|>a<|/ref|><|det|>[[1,2,3,4]]<|/det|>".data false
          = pre ++ post
        ∧ post.length ≤ 1
        ∧ parseBoxesFromTokens
            ("<|ref|>a<|/ref|><|det|>[[1,2,3,4]]<|/det|>".data ++ "XY".data) true
          = pre ++ post2
        ∧ ∀ b ∈ post, ∃ b2 rest2, post2 = b2 :: rest2
            ∧ b2.content = b.content ∧ b2.isType = b.isType ∧ b2.type = b.type
            ∧ b2.x1 = b.x1 ∧ b2.y1 = b.y1 ∧ b2.x2 = b.x2 ∧ b2.y2 = b.y2) :=
  decode_append_stable "<|ref|>a<|/ref|><|det|>[[1,2,3,4]]<|/det|>".data "XY".data
    false true
